import Mathlib

/-!
Verification development for the coffee-futures spread pipeline
(`generate_spread_charts_html.py` together with `download_coffee.py`).

The Python source is shallowly embedded: the filename regex
`^(?P<root>.+?)(?P<month>[HKNUZ])(?P<year>\d\x7b2,4\x7d)?$` (IGNORECASE) becomes a
left-to-right scan with a lazy (shortest-first) root, prices become rationals,
pandas frames become association lists keyed by an encoded date, and the
stable `sorted` of Python becomes an insertion sort.
-/

namespace Futures

/-- `COFFEE_MONTH_CODES = ('H':3, 'K':5, 'N':7, 'U':9, 'Z':12)` from the source. -/
def COFFEE_MONTH_CODES : List (Char × Nat) := [('H', 3), ('K', 5), ('N', 7), ('U', 9), ('Z', 12)]

/-- The character class `[HKNUZ]` under `re.IGNORECASE`. -/
def monthOk (ch : Char) : Bool :=
  decide (ch ∈ ['H', 'K', 'N', 'U', 'Z', 'h', 'k', 'n', 'u', 'z'])

/-- Numeric value of a decimal digit character. -/
def digitVal (ch : Char) : Nat := ch.toNat - 48

/-- Python `int` on a string of decimal digits. -/
def digitsToNat (l : List Char) : Nat := l.foldl (fun n ch => 10 * n + digitVal ch) 0

/-- The optional year group `(\d\x7b2,4\x7d)?` anchored at the end of the string:
the remainder after the month letter must be empty or consist of 2 to 4 digits. -/
def yearOk (l : List Char) : Bool :=
  l.isEmpty || (l.all Char.isDigit && decide (2 ≤ l.length) && decide (l.length ≤ 4))

/-- The regex match `FNAME_RE.match(fname)`: the root `.+?` is lazy, so the scan
tries the earliest position where the current character is a month letter and the
rest of the string satisfies the year group; `.` does not match a newline. -/
def parse_core : List Char → List Char → Option (List Char × Char × List Char)
  | _, [] => none
  | acc, ch :: rest =>
    if !acc.isEmpty && monthOk ch && yearOk rest then some (acc, ch, rest)
    else if ch = '\n' then none
    else parse_core (acc ++ [ch]) rest

/-- Python's `$` (no MULTILINE) matches at the end of the string or just before
one final trailing newline. No other piece of `FNAME_RE` can consume a newline
(the lazy dot, the month class and the digit class all exclude it), so matching
the whole pattern against `fname` is exactly strict matching against `fname`
with a single trailing newline removed. -/
def effectiveInput (l : List Char) : List Char :=
  if l.getLast? = some '\n' then l.dropLast else l

/-- The strict-anchor part of `parse_filename`: on a match, the month is
uppercased and the year string, when present, becomes `int(year)` for 4 digits
and `2000+int(year)` otherwise. -/
def parse_chars (l : List Char) : Option (String × Char × Option Nat) :=
  match parse_core [] l with
  | none => none
  | some (root, mo, yr) =>
    some (String.mk root, mo.toUpper,
      if yr.isEmpty then none
      else some (if yr.length = 4 then digitsToNat yr else 2000 + digitsToNat yr))

/-- `parse_filename` from the source: match `FNAME_RE` — the dollar anchor
tolerating one trailing newline — and assemble root, month and year. -/
def parse_filename (fname : String) : Option (String × Char × Option Nat) :=
  parse_chars (effectiveInput fname.data)

/-- One catalog entry, the dict `{"path": f, "month": month, "year": year}`
built by `scan_csvs` (the path is kept as the file's stem string). -/
structure Entry where
  path : String
  month : Char
  year : Option Nat
deriving DecidableEq

instance : Inhabited Entry := ⟨⟨"", 'H', none⟩⟩

/-- The first component of the Python sort key
`(e["year"] if e["year"] else 9999, COFFEE_MONTH_CODES[e["month"]])`:
a falsy year (absent, or the integer 0) becomes the sentinel 9999. -/
def entryKeyYear (e : Entry) : Nat :=
  match e.year with
  | some y => if y = 0 then 9999 else y
  | none => 9999

/-- `COFFEE_MONTH_CODES[e["month"]]` (total, with 0 for a key outside the dict;
`sort_entries` is only reached after the month filter in `main`). -/
def monthNum (mo : Char) : Nat := (COFFEE_MONTH_CODES.lookup mo).getD 0

/-- The full sort key of `sort_entries`. -/
def entryKey (e : Entry) : Nat × Nat := (entryKeyYear e, monthNum e.month)

/-- Lexicographic comparison of sort keys, as Python compares key tuples. -/
def keyLe (a b : Entry) : Bool :=
  decide ((entryKey a).1 < (entryKey b).1) ||
    (decide ((entryKey a).1 = (entryKey b).1) && decide ((entryKey a).2 ≤ (entryKey b).2))

/-- Stable insertion step: `x` goes after every element whose key is `≤` its own. -/
def insertEntry (x : Entry) : List Entry → List Entry
  | [] => [x]
  | y :: ys => if keyLe y x then y :: insertEntry x ys else x :: y :: ys

/-- `sort_entries`: Python's stable `sorted` by the key above, modelled as a
stable insertion sort processing the list left to right. -/
def sort_entries (l : List Entry) : List Entry :=
  l.foldl (fun acc x => insertEntry x acc) []

/-- OHLC record for one trading day; prices are exact rationals. -/
structure Ohlc where
  o : ℚ
  hi : ℚ
  lo : ℚ
  c : ℚ
deriving DecidableEq

/-- One raw CSV row as far as `read_series` looks at it: the date cell (a
calendar day paired with a time-of-day component, or missing) and the four
price cells (each possibly missing). -/
structure RawRow where
  date : Option (Nat × Nat)
  o : Option ℚ
  hi : Option ℚ
  lo : Option ℚ
  c : Option ℚ

/-- `df[["date","open","high","low","close"]].dropna()`: keep a row only when
the date and all four prices are present. -/
def rowClean (r : RawRow) : Option ((Nat × Nat) × Ohlc) :=
  match r.date, r.o, r.hi, r.lo, r.c with
  | some d, some o, some h, some l, some c => some (d, ⟨o, h, l, c⟩)
  | _, _, _, _, _ => none

/-- `.dt.normalize()`: strip the time-of-day component, keeping the day. -/
def normalizeDate (p : (Nat × Nat) × Ohlc) : Nat × Ohlc := (p.1.1, p.2)

/-- Insertion step for `sort_values("Date")`, ascending and stable. -/
def insertRow (x : Nat × Ohlc) : List (Nat × Ohlc) → List (Nat × Ohlc)
  | [] => [x]
  | y :: ys => if y.1 ≤ x.1 then y :: insertRow x ys else x :: y :: ys

/-- `sort_values("Date")`: ascending sort of the rows by date. -/
def sortRows (l : List (Nat × Ohlc)) : List (Nat × Ohlc) :=
  l.foldl (fun acc x => insertRow x acc) []

/-- `drop_duplicates("Date")` with the default keep-first policy, written with
an accumulator of the dates already seen. -/
def dedupAux (seen : List Nat) : List (Nat × Ohlc) → List (Nat × Ohlc)
  | [] => []
  | x :: xs =>
    if x.1 ∈ seen then dedupAux seen xs
    else x :: dedupAux (x.1 :: seen) xs

/-- `drop_duplicates("Date")`: keep the first row of each date. -/
def dedupFirst (l : List (Nat × Ohlc)) : List (Nat × Ohlc) := dedupAux [] l

/-- `read_series`: dropna, normalize the dates, sort ascending, dedup keep-first. -/
def read_series (rows : List RawRow) : List (Nat × Ohlc) :=
  dedupFirst (sortRows ((rows.filterMap rowClean).map normalizeDate))

/-- Componentwise difference of two OHLC rows (`Open_A - Open_B`, ...). -/
def subOhlc (p q : Ohlc) : Ohlc := ⟨p.o - q.o, p.hi - q.hi, p.lo - q.lo, p.c - q.c⟩

/-- The joined-and-subtracted frame of `make_ohlc_chart`:
`a.join(b, how="inner")` keeps the dates of `a` that also occur in `b`
(both frames arrive sorted with unique dates from `read_series`), and the
spread frame subtracts the four price columns date by date. -/
def spread_df (a b : List (Nat × Ohlc)) : List (Nat × Ohlc) :=
  a.filterMap fun p => (b.lookup p.1).map fun q => (p.1, subOhlc p.2 q)

/-- `make_ohlc_chart` as seen by its caller: `None` when the inner join is
empty, otherwise the spread frame that gets charted. -/
def make_ohlc_chart (a b : List (Nat × Ohlc)) : Option (List (Nat × Ohlc)) :=
  if spread_df a b = [] then none else some (spread_df a b)

/-- The `results` assembly of `main`: one entry per pair whose chart call
returned something, pairs yielding `None` are skipped. -/
def collect_results (ps : List (List (Nat × Ohlc) × List (Nat × Ohlc))) :
    List (List (Nat × Ohlc)) :=
  ps.filterMap fun p => make_ohlc_chart p.1 p.2

/-- The pairing loop of `main`:
`for i in range(len(entries)-2): (entries[i], entries[i+2])`. -/
def spread_pairs (xs : List Entry) : List (Entry × Entry) :=
  (List.range (xs.length - 2)).map fun i => (xs.getD i default, xs.getD (i + 2) default)

/-- `e["month"] in COFFEE_MONTH_CODES`: dict-key membership. -/
def monthInCodes (mo : Char) : Bool := (COFFEE_MONTH_CODES.lookup mo).isSome

/-- The root test of `main`, `root.upper().startswith("KC")`: the first two
characters, uppercased, are `K` and `C`. -/
def rootIsCoffee (s : String) : Bool :=
  match s.data with
  | c1 :: c2 :: _ => c1.toUpper == 'K' && c2.toUpper == 'C'
  | _ => false

/-- The per-root body of `main`: skip roots not starting (case-insensitively)
with `"KC"`, filter to the coffee months, require at least two entries, sort,
and emit the 2-month pairs. -/
def process_root (root : String) (entries : List Entry) : List (Entry × Entry) :=
  if !(rootIsCoffee root) then []
  else
    let es := entries.filter fun e => monthInCodes e.month
    if es.length < 2 then []
    else spread_pairs (sort_entries es)

/-! ### Lemmas about the identifier scan -/

lemma monthOk_not_digit {ch : Char} (h : monthOk ch = true) : ch.isDigit = false := by
  simp only [monthOk, decide_eq_true_eq, List.mem_cons, List.not_mem_nil, or_false] at h
  rcases h with h | h | h | h | h | h | h | h | h | h <;> subst h <;> decide

lemma monthOk_of_digit {ch : Char} (h : ch.isDigit = true) : monthOk ch = false := by
  cases hmo : monthOk ch
  · rfl
  · rw [monthOk_not_digit hmo] at h
    exact absurd h (by decide)

lemma digit_ne_newline {ch : Char} (h : ch.isDigit = true) : ch ≠ '\n' := by
  intro he
  subst he
  exact absurd h (by decide)

lemma yearOk_false_of_mem {m : Char} {l : List Char} (hm : m ∈ l)
    (hd : m.isDigit = false) : yearOk l = false := by
  have h1 : l.isEmpty = false := by
    cases l
    · exact absurd hm (List.not_mem_nil m)
    · rfl
  have h2 : l.all Char.isDigit = false := by
    cases hall : l.all Char.isDigit
    · rfl
    · rw [List.all_eq_true] at hall
      have hmd := hall m hm
      rw [hd] at hmd
      exact absurd hmd (by decide)
  simp [yearOk, h1, h2]

/-- The lazy scan runs through every character of `rs` without matching, then
matches the month letter `m` and the year remainder `yy`. -/
lemma parse_core_through (rs : List Char) : ∀ acc : List Char, ∀ m : Char, ∀ yy : List Char,
    monthOk m = true → yearOk yy = true → '\n' ∉ rs → (acc ≠ [] ∨ rs ≠ []) →
    parse_core acc (rs ++ m :: yy) = some (acc ++ rs, m, yy) := by
  induction rs with
  | nil =>
    intro acc m yy hm hy _ hne
    have hacc : acc ≠ [] := by
      rcases hne with h | h
      · exact h
      · exact absurd rfl h
    cases acc with
    | nil => exact absurd rfl hacc
    | cons a as => simp [parse_core, hm, hy]
  | cons r rs' ih =>
    intro acc m yy hm hy hnl hne
    have hyf : yearOk (rs' ++ m :: yy) = false :=
      yearOk_false_of_mem (by simp) (monthOk_not_digit hm)
    have hrn : r ≠ '\n' := fun he => hnl (he ▸ List.mem_cons_self r rs')
    have hstep := ih (acc ++ [r]) m yy hm hy (fun hmm => hnl (List.mem_cons_of_mem r hmm))
      (Or.inl (by simp))
    show parse_core acc (r :: (rs' ++ m :: yy)) = some (acc ++ r :: rs', m, yy)
    rw [parse_core, if_neg (by simp [hyf]), if_neg hrn, hstep]
    simp

/-- Any successful scan decomposes its input as root, month letter, year suffix,
with a non-empty root that extends the accumulator. -/
lemma parse_core_sound : ∀ rest acc root m y, parse_core acc rest = some (root, m, y) →
    ∃ rs, rest = rs ++ m :: y ∧ root = acc ++ rs ∧ root ≠ [] ∧
      monthOk m = true ∧ yearOk y = true := by
  intro rest
  induction rest with
  | nil => intro acc root m y h; exact absurd h (by simp [parse_core])
  | cons ch cs ih =>
    intro acc root m y h
    by_cases hcond : (!acc.isEmpty && monthOk ch && yearOk cs) = true
    · rw [parse_core, if_pos hcond] at h
      obtain ⟨⟨hne, hmo⟩, hyo⟩ := by simpa [Bool.and_eq_true] using hcond
      obtain ⟨h1, h2, h3⟩ : root = acc ∧ ch = m ∧ cs = y := by
        simpa [Prod.ext_iff, eq_comm] using h
      refine ⟨[], by simp [h2, h3], by simp [h1], ?_, h2 ▸ hmo, h3 ▸ hyo⟩
      subst h1
      simpa using hne
    · rw [parse_core, if_neg hcond] at h
      by_cases hnl : ch = '\n'
      · rw [if_pos hnl] at h
        exact absurd h (by simp)
      · rw [if_neg hnl] at h
        obtain ⟨rs', hcs, hroot, hne, hmo, hyo⟩ := ih (acc ++ [ch]) root m y h
        exact ⟨ch :: rs', by simp [hcs], by simp [hroot], hne, hmo, hyo⟩

/-- A string of digits contains no month letter, so the scan fails on it. -/
lemma parse_core_digits : ∀ ds : List Char, ds.all Char.isDigit = true →
    ∀ acc, parse_core acc ds = none := by
  intro ds
  induction ds with
  | nil => intro _ acc; simp [parse_core]
  | cons d ds' ih =>
    intro hall acc
    rw [List.all_cons, Bool.and_eq_true] at hall
    obtain ⟨hd, hds⟩ := hall
    rw [parse_core, if_neg (by simp [monthOk_of_digit hd]), if_neg (digit_ne_newline hd)]
    exact ih hds _

lemma effectiveInput_of_getLast (l : List Char) (h : l.getLast? ≠ some '\n') :
    effectiveInput l = l := if_neg h

/-- Fidelity check for the dollar anchor: the stem `KCH24` followed by one
trailing newline still matches, exactly as `FNAME_RE.match` does in Python. -/
lemma parse_trailing_newline :
    parse_filename (String.mk ['K', 'C', 'H', '2', '4', '\n'])
        = some ("KC", 'H', some 2024) ∧
      parse_filename (String.mk ['K', 'C', 'H', '2', '4', '\n', '\n']) = none := by
  refine ⟨by decide, by decide⟩

/-- Claim C2, counterexample: `KCF24` uses month code `F`, one of the 12
standard delivery-month letters, with a non-empty root and a 2-digit year,
yet `parse_filename` rejects it: the regex class is `[HKNUZ]`, not the full
12-letter alphabet. -/
theorem parse_roundtrip_cex : parse_filename "KCF24" = none := by decide

/-- Claim C2 (amended): for every identifier `<root><month><yy>` whose month
letter is one of the five coffee month codes H, K, N, U, Z (either case) and
whose root is non-empty (and free of newlines, which the regex dot cannot
match), parsing succeeds and recovers exactly the root, the month code
(uppercased), and the year as `2000 + yy`. -/
theorem parse_roundtrip (root : List Char) (mo d1 d2 : Char)
    (hroot : root ≠ []) (hnl : '\n' ∉ root) (hm : monthOk mo = true)
    (h1 : d1.isDigit = true) (h2 : d2.isDigit = true) :
    parse_filename (String.mk (root ++ mo :: [d1, d2]))
      = some (String.mk root, mo.toUpper, some (2000 + digitsToNat [d1, d2])) := by
  have hy : yearOk [d1, d2] = true := by simp [yearOk, List.all_cons, h1, h2]
  have hcore := parse_core_through root [] mo [d1, d2] hm hy hnl (Or.inr hroot)
  have hlast : (root ++ mo :: [d1, d2]).getLast? ≠ some '\n' := by
    rw [show root ++ mo :: [d1, d2] = (root ++ [mo, d1]) ++ [d2] by simp,
      List.getLast?_concat]
    intro he
    simp only [Option.some.injEq] at he
    exact digit_ne_newline h2 he
  rw [parse_filename,
    show (String.mk (root ++ mo :: [d1, d2])).data = root ++ mo :: [d1, d2] from rfl,
    effectiveInput_of_getLast _ hlast, parse_chars, hcore]
  simp

/-- Claim C2, witness: `KCh24` (lower-case month) parses back to root `KC`,
month `H`, year 2024. -/
theorem parse_roundtrip_witness :
    parse_filename (String.mk (['K', 'C'] ++ 'h' :: ['2', '4']))
      = some (String.mk ['K', 'C'], 'h'.toUpper, some (2000 + digitsToNat ['2', '4'])) :=
  parse_roundtrip ['K', 'C'] 'h' '2' '4' (by decide) (by decide) (by decide)
    (by decide) (by decide)

/-- Claim C6, counterexample: the year group of the regex is `\d\x7b2,4\x7d`, so a
trailing run of exactly 3 digits IS parsed as a year (`2000+123 = 2123`),
contradicting "exactly 2 or 4 digits". -/
theorem year_suffix_cex : parse_filename "KCH123" = some ("KC", 'H', some 2123) := by
  decide

/-- Claim C6 (amended): the parser accepts an optional trailing numeric year
suffix of 2 to 4 digits; a 4-digit year is taken verbatim and a 2- or 3-digit
year is mapped to `2000+YY`; a trailing digit run of length 1 or of length 5
and more does not match the shape and parsing fails. -/
theorem year_suffix_shape (ds : List Char) (hds : ds.all Char.isDigit = true) :
    parse_filename (String.mk ('K' :: 'C' :: 'H' :: ds)) =
      if ds = [] then some ("KC", 'H', none)
      else if 2 ≤ ds.length ∧ ds.length ≤ 4 then
        some ("KC", 'H',
          some (if ds.length = 4 then digitsToNat ds else 2000 + digitsToNat ds))
      else none := by
  have hlast : ('K' :: 'C' :: 'H' :: ds).getLast? ≠ some '\n' := by
    rcases List.eq_nil_or_concat ds with hnil | ⟨L, b, hcat⟩
    · rw [hnil]; decide
    · rw [hcat, List.concat_eq_append,
        show 'K' :: 'C' :: 'H' :: (L ++ [b]) = ('K' :: 'C' :: 'H' :: L) ++ [b] from by simp,
        List.getLast?_concat]
      have hb : b.isDigit = true := by
        rw [List.all_eq_true] at hds
        exact hds b (by rw [hcat]; simp)
      intro he
      simp only [Option.some.injEq] at he
      exact digit_ne_newline hb he
  rw [parse_filename,
    show (String.mk ('K' :: 'C' :: 'H' :: ds)).data = 'K' :: 'C' :: 'H' :: ds from rfl,
    effectiveInput_of_getLast _ hlast, parse_chars]
  rw [parse_core, if_neg (by simp), if_neg (by decide)]
  rw [parse_core, if_neg (by simp [monthOk]), if_neg (by decide)]
  by_cases hY : yearOk ds = true
  · rw [parse_core, if_pos (by simp [monthOk, hY])]
    by_cases hnil : ds = []
    · subst hnil; simp
    · rw [if_neg hnil]
      have hlen : 2 ≤ ds.length ∧ ds.length ≤ 4 := by
        rw [yearOk, Bool.or_eq_true, Bool.and_eq_true, Bool.and_eq_true] at hY
        rcases hY with h | ⟨⟨_, h2⟩, h4⟩
        · exact absurd (by simpa using h) hnil
        · exact ⟨by simpa using h2, by simpa using h4⟩
      rw [if_pos hlen]
      simp [List.isEmpty_iff, hnil]
  · rw [parse_core, if_neg (by simp [hY]), if_neg (by decide),
      parse_core_digits ds hds]
    have hnil : ds ≠ [] := by
      intro h; subst h; exact hY rfl
    rw [if_neg hnil]
    have hlen : ¬(2 ≤ ds.length ∧ ds.length ≤ 4) := by
      intro ⟨h2, h4⟩
      exact hY (by simp [yearOk, hds, h2, h4])
    rw [if_neg hlen]

/-- Claim C6, witness: `KCH123` parses with year `2000+123 = 2123`; `KCH1` does
not parse; `KCH` parses with no year. -/
theorem year_suffix_witness :
    parse_filename (String.mk ('K' :: 'C' :: 'H' :: ['1', '2', '3']))
        = some ("KC", 'H', some 2123) ∧
      parse_filename (String.mk ('K' :: 'C' :: 'H' :: ['1'])) = none ∧
      parse_filename (String.mk ('K' :: 'C' :: 'H' :: [])) = some ("KC", 'H', none) := by
  refine ⟨?_, ?_, ?_⟩
  · rw [year_suffix_shape ['1', '2', '3'] (by decide)]; decide
  · rw [year_suffix_shape ['1'] (by decide)]; decide
  · rw [year_suffix_shape [] (by decide)]; decide

/-- Claim C10: every successfully parsed identifier has a non-empty root
(the regex root `.+?` needs at least one character), and in particular
`H24` — a month letter plus digits with nothing before it — fails to parse. -/
theorem root_nonempty :
    (∀ s root mo yr, parse_filename s = some (root, mo, yr) → root ≠ "") ∧
      parse_filename "H24" = none := by
  constructor
  · intro s root mo yr h
    rw [parse_filename, parse_chars] at h
    cases hpc : parse_core [] (effectiveInput s.data) with
    | none => rw [hpc] at h; exact absurd h (by simp)
    | some v =>
      obtain ⟨cs, mv, yv⟩ := v
      obtain ⟨rs, _, hroot, hne, _, _⟩ :=
        parse_core_sound (effectiveInput s.data) [] cs mv yv hpc
      rw [hpc] at h
      simp only [Option.some.injEq, Prod.mk.injEq] at h
      obtain ⟨h1, -, -⟩ := h
      intro hemp
      rw [← h1] at hemp
      have hcs : cs = [] := congrArg String.data hemp
      rw [List.nil_append] at hroot
      exact hne (hroot ▸ hcs)
  · decide

/-- Claim C10, witness: `KCH24` parses and its root `KC` is non-empty. -/
theorem root_nonempty_witness : ("KC" : String) ≠ "" :=
  root_nonempty.1 "KCH24" "KC" 'H' (some 2024) (by decide)

/-! ### Lemmas about the catalog sort -/

lemma keyLe_iff (a b : Entry) : keyLe a b = true ↔
    (entryKey a).1 < (entryKey b).1 ∨
      ((entryKey a).1 = (entryKey b).1 ∧ (entryKey a).2 ≤ (entryKey b).2) := by
  simp [keyLe]

lemma keyLe_total (a b : Entry) : keyLe a b = true ∨ keyLe b a = true := by
  rw [keyLe_iff, keyLe_iff]
  omega

lemma keyLe_trans {a b c : Entry} (h1 : keyLe a b = true) (h2 : keyLe b c = true) :
    keyLe a c = true := by
  rw [keyLe_iff] at *
  omega

lemma mem_insertEntry (x z : Entry) (l : List Entry) :
    z ∈ insertEntry x l ↔ z = x ∨ z ∈ l := by
  induction l with
  | nil => simp [insertEntry]
  | cons y ys ih =>
    by_cases hk : keyLe y x = true
    · simp [insertEntry, hk, ih]
      tauto
    · simp [insertEntry, hk]

lemma pairwise_insertEntry (x : Entry) (l : List Entry)
    (hl : l.Pairwise fun a b => keyLe a b = true) :
    (insertEntry x l).Pairwise fun a b => keyLe a b = true := by
  induction l with
  | nil => simp [insertEntry]
  | cons y ys ih =>
    rw [List.pairwise_cons] at hl
    obtain ⟨hy, hys⟩ := hl
    by_cases hk : keyLe y x = true
    · rw [insertEntry, if_pos hk, List.pairwise_cons]
      refine ⟨?_, ih hys⟩
      intro z hz
      rcases (mem_insertEntry x z ys).mp hz with h | h
      · exact h ▸ hk
      · exact hy z h
    · rw [insertEntry, if_neg hk, List.pairwise_cons]
      have hxy : keyLe x y = true := (keyLe_total y x).resolve_left hk
      refine ⟨?_, List.pairwise_cons.mpr ⟨hy, hys⟩⟩
      intro z hz
      rcases List.mem_cons.mp hz with h | h
      · exact h ▸ hxy
      · exact keyLe_trans hxy (hy z h)

lemma pairwise_sort_entries_aux (l : List Entry) : ∀ acc : List Entry,
    acc.Pairwise (fun a b => keyLe a b = true) →
    (l.foldl (fun a x => insertEntry x a) acc).Pairwise fun a b => keyLe a b = true := by
  induction l with
  | nil => intro acc hacc; exact hacc
  | cons x xs ih => intro acc hacc; exact ih _ (pairwise_insertEntry x acc hacc)

lemma pairwise_sort_entries (l : List Entry) :
    (sort_entries l).Pairwise fun a b => keyLe a b = true :=
  pairwise_sort_entries_aux l [] (List.Pairwise.nil)

lemma mem_sort_entries_aux (l : List Entry) : ∀ acc z,
    z ∈ l.foldl (fun a x => insertEntry x a) acc ↔ z ∈ acc ∨ z ∈ l := by
  induction l with
  | nil => intro acc z; simp
  | cons x xs ih =>
    intro acc z
    rw [List.foldl_cons, ih, mem_insertEntry]
    simp
    tauto

lemma mem_sort_entries (l : List Entry) (z : Entry) : z ∈ sort_entries l ↔ z ∈ l := by
  rw [sort_entries, mem_sort_entries_aux]
  simp

/-! ### Catalog-ordering claim -/

/-- Claim C5, counterexample: an explicit 4-digit year 9999 collides with the
missing-year sentinel: the identifier `KCH` (no year) sorts BEFORE `KCZ9999`
(explicit year 9999), not after every identifier carrying an explicit year.
Both identifiers are reachable through the parser. -/
theorem missing_year_cex :
    parse_filename "KCZ9999" = some ("KC", 'Z', some 9999) ∧
      parse_filename "KCH" = some ("KC", 'H', none) ∧
      sort_entries [⟨"KCZ9999", 'Z', some 9999⟩, ⟨"KCH", 'H', none⟩]
        = [⟨"KCH", 'H', none⟩, ⟨"KCZ9999", 'Z', some 9999⟩] := by
  decide

/-- Claim C5 (amended): an identifier with no year is given the sentinel year
key 9999, so in the catalog ordering it never precedes an identifier whose
explicit year is non-zero and below 9999 (explicit year 9999 — and explicit
year 0, which Python truthiness conflates with the missing year — share the
sentinel key and can sort before it). -/
theorem missing_year_sorts_last (l : List Entry) :
    (sort_entries l).Pairwise fun a b =>
      ¬(a.year = none ∧ ∃ y, b.year = some y ∧ 0 < y ∧ y < 9999) := by
  refine (pairwise_sort_entries l).imp ?_
  intro a b hle hcontra
  obtain ⟨ha, y, hb, hy0, hy⟩ := hcontra
  rw [keyLe_iff] at hle
  have hka : (entryKey a).1 = 9999 := by simp [entryKey, entryKeyYear, ha]
  have hkb : (entryKey b).1 = y := by
    simp [entryKey, entryKeyYear, hb, hy0.ne']
  omega

/-- Claim C5, witness: the amended ordering at a concrete catalog. -/
theorem missing_year_sorts_last_witness :
    (sort_entries [⟨"KCH", 'H', none⟩, ⟨"KCZ24", 'Z', some 2024⟩]).Pairwise fun a b =>
      ¬(a.year = none ∧ ∃ y, b.year = some y ∧ 0 < y ∧ y < 9999) :=
  missing_year_sorts_last [⟨"KCH", 'H', none⟩, ⟨"KCZ24", 'Z', some 2024⟩]

/-! ### Pairing claims -/

/-- Claim C1, counterexample: over a sorted sequence of 3 contracts the loop
`for i in range(len(entries)-2)` emits 1 pair, but `max(0, N-1-k)` with
`N = 3` and the code's offset `k = 2` predicts 0 pairs. -/
theorem pairing_count_cex :
    ((spread_pairs [⟨"KCH24", 'H', some 2024⟩, ⟨"KCK24", 'K', some 2024⟩,
        ⟨"KCN24", 'N', some 2024⟩]).length : ℤ) = 1 ∧
      (1 : ℤ) ≠ max 0 ((3 : ℤ) - 1 - 2) := by
  constructor
  · decide
  · decide

/-- Claim C1 (amended): the Pairing Selector is hardwired to offset `k = 2`
and produces exactly `max(0, N-2)` pairs over a sequence of length `N`, namely
`(sequence[i], sequence[i+2])` for every `i` in `[0, N-2)` — so each pair
satisfies `deferredIndex == nearIndex + 2` — and an empty list (not an error)
when `N - 2 ≤ 0`. -/
theorem pairing_count (xs : List Entry) :
    ((spread_pairs xs).length : ℤ) = max 0 ((xs.length : ℤ) - 2) ∧
      (∀ i, i < xs.length - 2 →
        (spread_pairs xs).getD i (default, default)
          = (xs.getD i default, xs.getD (i + 2) default)) ∧
      (xs.length ≤ 2 → spread_pairs xs = []) := by
  refine ⟨?_, ?_, ?_⟩
  · simp only [spread_pairs, List.length_map, List.length_range]
    omega
  · intro i hi
    have hil : i < (List.range (xs.length - 2)).length := by simpa using hi
    rw [spread_pairs, List.getD_eq_getElem _ _ (by simpa using hi), List.getElem_map,
      List.getElem_range]
  · intro hlen
    have h2 : xs.length - 2 = 0 := by omega
    simp [spread_pairs, h2]

/-- Claim C1, witness: the first pair over a concrete 3-entry catalog is
`(entries[0], entries[2])`. -/
theorem pairing_count_witness :
    (spread_pairs [⟨"KCH24", 'H', some 2024⟩, ⟨"KCK24", 'K', some 2024⟩,
        ⟨"KCN24", 'N', some 2024⟩]).getD 0 (default, default)
      = ([⟨"KCH24", 'H', some 2024⟩, ⟨"KCK24", 'K', some 2024⟩,
          ⟨"KCN24", 'N', some 2024⟩].getD 0 default,
         [⟨"KCH24", 'H', some 2024⟩, ⟨"KCK24", 'K', some 2024⟩,
          ⟨"KCN24", 'N', some 2024⟩].getD 2 default) :=
  (pairing_count _).2.1 0 (by decide)

lemma mem_spread_pairs (xs : List Entry) (p : Entry × Entry)
    (hp : p ∈ spread_pairs xs) : p.1 ∈ xs ∧ p.2 ∈ xs := by
  rw [spread_pairs, List.mem_map] at hp
  obtain ⟨i, hi, hpi⟩ := hp
  rw [List.mem_range] at hi
  have h1 : i < xs.length := by omega
  have h2 : i + 2 < xs.length := by omega
  rw [List.getD_eq_getElem _ _ h1, List.getD_eq_getElem _ _ h2] at hpi
  subst hpi
  exact ⟨List.getElem_mem _, List.getElem_mem _⟩

/-- Claim C7, counterexample: the root test in `main` is
`root.upper().startswith("KC")`, a case-insensitive PREFIX test, so the root
`KCA` — parsed from `KCAH24` and distinct from the configured symbol `KC` —
still enters the pairing stage and produces a spread pair. -/
theorem pairing_filter_cex :
    parse_filename "KCAH24" = some ("KCA", 'H', some 2024) ∧
      ("KCA" : String) ≠ "KC" ∧
      process_root "KCA" [⟨"KCAH24", 'H', some 2024⟩, ⟨"KCAK24", 'K', some 2024⟩,
          ⟨"KCAN24", 'N', some 2024⟩]
        = [(⟨"KCAH24", 'H', some 2024⟩, ⟨"KCAN24", 'N', some 2024⟩)] := by
  refine ⟨by decide, by decide, by decide⟩

/-- Claim C7 (amended): only contracts grouped under a root that starts,
case-insensitively, with the target symbol `KC` enter the pairing stage:
a root failing that test yields no pairs, and every entry of an emitted pair
comes from the input entries and carries a month code in the coffee
delivery-month set `{H,K,N,U,Z}`. -/
theorem pairing_filter (root : String) (entries : List Entry) :
    (rootIsCoffee root = false → process_root root entries = []) ∧
      (∀ p ∈ process_root root entries,
        monthInCodes p.1.month = true ∧ monthInCodes p.2.month = true ∧
          p.1 ∈ entries ∧ p.2 ∈ entries) := by
  constructor
  · intro h
    simp [process_root, h]
  · intro p hp
    rw [process_root] at hp
    by_cases hroot : rootIsCoffee root = true
    · rw [if_neg (by simp [hroot])] at hp
      by_cases hlen : (entries.filter fun e => monthInCodes e.month).length < 2
      · rw [if_pos hlen] at hp
        exact absurd hp (List.not_mem_nil p)
      · rw [if_neg hlen] at hp
        obtain ⟨h1, h2⟩ := mem_spread_pairs _ p hp
        rw [mem_sort_entries, List.mem_filter] at h1 h2
        exact ⟨h1.2, h2.2, h1.1, h2.1⟩
    · rw [if_pos (by simpa using hroot)] at hp
      exact absurd hp (List.not_mem_nil p)

/-- Claim C7, witness: a root that does not start with `KC` produces no pairs. -/
theorem pairing_filter_witness :
    process_root "AB" [⟨"ABH24", 'H', some 2024⟩, ⟨"ABK24", 'K', some 2024⟩,
        ⟨"ABN24", 'N', some 2024⟩] = [] :=
  (pairing_filter "AB" _).1 (by decide)

/-! ### Lemmas about association-list lookup -/

lemma lookup_isSome_iff {β : Type} (l : List (Nat × β)) (d : Nat) :
    (l.lookup d).isSome = true ↔ d ∈ l.map Prod.fst := by
  induction l with
  | nil => simp
  | cons p t ih =>
    obtain ⟨k, v⟩ := p
    by_cases hk : d = k
    · subst hk
      simp [List.lookup_cons]
    · rw [List.lookup_cons]
      simp [beq_false_of_ne hk, ih, hk]

lemma lookup_eq_some_mem {β : Type} (l : List (Nat × β)) (d : Nat) (v : β)
    (h : l.lookup d = some v) : (d, v) ∈ l := by
  induction l with
  | nil => simp at h
  | cons p t ih =>
    obtain ⟨k, w⟩ := p
    rw [List.lookup_cons] at h
    by_cases hk : d = k
    · subst hk
      rw [show (d == d) = true from beq_self_eq_true d] at h
      simp only [Option.some.injEq] at h
      subst h
      exact List.mem_cons_self _ _
    · rw [show (d == k) = false from beq_false_of_ne hk] at h
      exact List.mem_cons_of_mem _ (ih h)

lemma lookup_eq_none_of_not_mem {β : Type} (l : List (Nat × β)) (d : Nat)
    (h : d ∉ l.map Prod.fst) : l.lookup d = none := by
  cases hl : l.lookup d with
  | none => rfl
  | some v =>
    exact absurd ((lookup_isSome_iff l d).mp (by simp [hl])) h

/-! ### Spread-calculator claims -/

lemma spread_df_mem (a b : List (Nat × Ohlc)) (x : Nat × Ohlc)
    (hx : x ∈ spread_df a b) :
    ∃ pa qb, (x.1, pa) ∈ a ∧ (x.1, qb) ∈ b ∧ x.2 = subOhlc pa qb := by
  rw [spread_df, List.mem_filterMap] at hx
  obtain ⟨p, hp, hf⟩ := hx
  cases hlk : b.lookup p.1 with
  | none => rw [hlk] at hf; simp at hf
  | some q =>
    rw [hlk] at hf
    simp only [Option.map_some', Option.some.injEq] at hf
    subst hf
    exact ⟨p.2, q, by simpa using hp, lookup_eq_some_mem b p.1 q hlk, rfl⟩

/-- The near series for the `KCH24`/`KCK24` scenario of the specification
(dates encoded as `yyyymmdd`, the single quoted price filling all four
OHLC components). -/
def nearScenario : List (Nat × Ohlc) :=
  [(20240102, ⟨200, 200, 200, 200⟩), (20240103, ⟨202, 202, 202, 202⟩)]

/-- The deferred series for the same scenario. -/
def deferredScenario : List (Nat × Ohlc) :=
  [(20240102, ⟨205, 205, 205, 205⟩), (20240103, ⟨206, 206, 206, 206⟩)]

/-- Claim C3: the spread keeps exactly the dates present in both series, each
surviving date carries the componentwise difference near minus deferred of
open, high, low and close, an ascending-date input yields an ascending-date
spread, and the spec's scenario evaluates to the spreads `-5` and `-4`. -/
theorem spread_props (a b : List (Nat × Ohlc)) :
    ((a.Pairwise fun x y => x.1 < y.1) →
        (spread_df a b).Pairwise fun x y => x.1 < y.1) ∧
      (∀ d, d ∈ (spread_df a b).map Prod.fst ↔
        d ∈ a.map Prod.fst ∧ d ∈ b.map Prod.fst) ∧
      (∀ x ∈ spread_df a b,
        ∃ pa qb, (x.1, pa) ∈ a ∧ (x.1, qb) ∈ b ∧ x.2 = subOhlc pa qb) ∧
      spread_df nearScenario deferredScenario
        = [(20240102, ⟨-5, -5, -5, -5⟩), (20240103, ⟨-4, -4, -4, -4⟩)] := by
  refine ⟨?_, ?_, spread_df_mem a b, ?_⟩
  · intro ha
    induction a with
    | nil => simp [spread_df]
    | cons p t ih =>
      rw [List.pairwise_cons] at ha
      obtain ⟨hp, ht⟩ := ha
      rw [spread_df, List.filterMap_cons]
      cases hlk : b.lookup p.1 with
      | none => exact ih ht
      | some q =>
        simp only [Option.map_some']
        rw [List.pairwise_cons]
        refine ⟨?_, ih ht⟩
        intro z hz
        obtain ⟨pa, _, hza, _, _⟩ := spread_df_mem t b z hz
        exact hp (z.1, pa) hza
  · intro d
    constructor
    · intro hd
      rw [List.mem_map] at hd
      obtain ⟨x, hx, hxd⟩ := hd
      obtain ⟨pa, qb, hxa, hxb, _⟩ := spread_df_mem a b x hx
      subst hxd
      exact ⟨List.mem_map.mpr ⟨(x.1, pa), hxa, rfl⟩, List.mem_map.mpr ⟨(x.1, qb), hxb, rfl⟩⟩
    · intro ⟨hda, hdb⟩
      rw [List.mem_map] at hda
      obtain ⟨p, hp, hpd⟩ := hda
      obtain ⟨q, hq⟩ := Option.isSome_iff_exists.mp ((lookup_isSome_iff b d).mpr hdb)
      rw [List.mem_map]
      refine ⟨(p.1, subOhlc p.2 q), ?_, hpd⟩
      rw [spread_df, List.mem_filterMap]
      exact ⟨p, hp, by rw [hpd, hq]; rfl⟩
  · simp [spread_df, nearScenario, deferredScenario, List.filterMap, List.lookup,
      subOhlc, Ohlc.mk.injEq]
    norm_num

/-- Claim C3, witness: on the (ascending) scenario series the spread is again
ascending in date. -/
theorem spread_props_witness :
    (spread_df nearScenario deferredScenario).Pairwise fun x y => x.1 < y.1 :=
  (spread_props nearScenario deferredScenario).1 (by decide)

lemma spread_df_nil_of_disjoint (a b : List (Nat × Ohlc))
    (h : ∀ d ∈ a.map Prod.fst, d ∉ b.map Prod.fst) : spread_df a b = [] := by
  induction a with
  | nil => rfl
  | cons p t ih =>
    rw [spread_df, List.filterMap_cons,
      lookup_eq_none_of_not_mem b p.1 (h p.1 (by simp))]
    exact ih fun d hd => h d (List.mem_cons_of_mem _ hd)

/-- Claim C8: two series with no common date make `make_ohlc_chart` return the
explicit `None` result (no exception is modelled: the function is total),
`main` drops such a pair from `results` instead of appending an entry, and no
assembled result is ever an empty spread. -/
theorem no_overlap_skipped (a b : List (Nat × Ohlc))
    (h : ∀ d ∈ a.map Prod.fst, d ∉ b.map Prod.fst) :
    make_ohlc_chart a b = none ∧
      (∀ ps, collect_results ((a, b) :: ps) = collect_results ps) ∧
      (∀ ps x, x ∈ collect_results ps → x ≠ []) := by
  have hnil : spread_df a b = [] := spread_df_nil_of_disjoint a b h
  have hchart : make_ohlc_chart a b = none := by
    rw [make_ohlc_chart, if_pos hnil]
  refine ⟨hchart, ?_, ?_⟩
  · intro ps
    rw [collect_results, List.filterMap_cons, hchart]
    rfl
  · intro ps x hx
    rw [collect_results, List.mem_filterMap] at hx
    obtain ⟨p, _, hp⟩ := hx
    rw [make_ohlc_chart] at hp
    by_cases hdf : spread_df p.1 p.2 = []
    · rw [if_pos hdf] at hp
      exact absurd hp (by simp)
    · rw [if_neg hdf] at hp
      simp only [Option.some.injEq] at hp
      exact hp ▸ hdf

/-- Claim C8, witness: two one-day series on different days produce `None` and
are omitted from an otherwise empty result list. -/
theorem no_overlap_skipped_witness :
    make_ohlc_chart [(20240102, ⟨1, 1, 1, 1⟩)] [(20240103, ⟨1, 1, 1, 1⟩)] = none ∧
      collect_results [([(20240102, ⟨1, 1, 1, 1⟩)], [(20240103, ⟨1, 1, 1, 1⟩)])]
        = collect_results [] := by
  have h := no_overlap_skipped [(20240102, ⟨1, 1, 1, 1⟩)] [(20240103, ⟨1, 1, 1, 1⟩)]
    (by decide)
  exact ⟨h.1, h.2.1 []⟩

/-! ### Lemmas about the series loader -/

lemma mem_insertRow (x z : Nat × Ohlc) (l : List (Nat × Ohlc)) :
    z ∈ insertRow x l ↔ z = x ∨ z ∈ l := by
  induction l with
  | nil => simp [insertRow]
  | cons y ys ih =>
    by_cases hk : y.1 ≤ x.1
    · simp [insertRow, hk, ih]
      tauto
    · simp [insertRow, hk]

lemma pairwise_insertRow (x : Nat × Ohlc) (l : List (Nat × Ohlc))
    (hl : l.Pairwise fun u v => u.1 ≤ v.1) :
    (insertRow x l).Pairwise fun u v => u.1 ≤ v.1 := by
  induction l with
  | nil => simp [insertRow]
  | cons y ys ih =>
    rw [List.pairwise_cons] at hl
    obtain ⟨hy, hys⟩ := hl
    by_cases hk : y.1 ≤ x.1
    · rw [insertRow, if_pos hk, List.pairwise_cons]
      refine ⟨?_, ih hys⟩
      intro z hz
      rcases (mem_insertRow x z ys).mp hz with h | h
      · exact h ▸ hk
      · exact hy z h
    · rw [insertRow, if_neg hk, List.pairwise_cons]
      refine ⟨?_, List.pairwise_cons.mpr ⟨hy, hys⟩⟩
      intro z hz
      rcases List.mem_cons.mp hz with h | h
      · subst h; omega
      · have := hy z h; omega

lemma pairwise_sortRows_aux (l : List (Nat × Ohlc)) : ∀ acc,
    acc.Pairwise (fun u v => u.1 ≤ v.1) →
    (l.foldl (fun a x => insertRow x a) acc).Pairwise fun u v => u.1 ≤ v.1 := by
  induction l with
  | nil => intro acc hacc; exact hacc
  | cons x xs ih => intro acc hacc; exact ih _ (pairwise_insertRow x acc hacc)

lemma pairwise_sortRows (l : List (Nat × Ohlc)) :
    (sortRows l).Pairwise fun u v => u.1 ≤ v.1 :=
  pairwise_sortRows_aux l [] List.Pairwise.nil

lemma mem_sortRows_aux (l : List (Nat × Ohlc)) : ∀ acc z,
    z ∈ l.foldl (fun a x => insertRow x a) acc ↔ z ∈ acc ∨ z ∈ l := by
  induction l with
  | nil => intro acc z; simp
  | cons x xs ih =>
    intro acc z
    rw [List.foldl_cons, ih, mem_insertRow]
    simp
    tauto

lemma mem_sortRows (l : List (Nat × Ohlc)) (z : Nat × Ohlc) :
    z ∈ sortRows l ↔ z ∈ l := by
  rw [sortRows, mem_sortRows_aux]
  simp

lemma mem_dedupAux (l : List (Nat × Ohlc)) : ∀ seen x,
    x ∈ dedupAux seen l → x ∈ l := by
  induction l with
  | nil => intro seen x hx; simp [dedupAux] at hx
  | cons y ys ih =>
    intro seen x hx
    rw [dedupAux] at hx
    by_cases hy : y.1 ∈ seen
    · rw [if_pos hy] at hx
      exact List.mem_cons_of_mem _ (ih seen x hx)
    · rw [if_neg hy] at hx
      rcases List.mem_cons.mp hx with h | h
      · exact h ▸ List.mem_cons_self _ _
      · exact List.mem_cons_of_mem _ (ih _ x h)

lemma dedupAux_not_seen (l : List (Nat × Ohlc)) : ∀ seen x,
    x ∈ dedupAux seen l → x.1 ∉ seen := by
  induction l with
  | nil => intro seen x hx; simp [dedupAux] at hx
  | cons y ys ih =>
    intro seen x hx
    rw [dedupAux] at hx
    by_cases hy : y.1 ∈ seen
    · rw [if_pos hy] at hx
      exact ih seen x hx
    · rw [if_neg hy] at hx
      rcases List.mem_cons.mp hx with h | h
      · exact h ▸ hy
      · intro hs
        exact ih _ x h (List.mem_cons_of_mem _ hs)

lemma pairwise_dedupAux (l : List (Nat × Ohlc)) : ∀ seen,
    l.Pairwise (fun u v => u.1 ≤ v.1) →
    (dedupAux seen l).Pairwise fun u v => u.1 < v.1 := by
  induction l with
  | nil => intro seen _; simp [dedupAux]
  | cons y ys ih =>
    intro seen hl
    rw [List.pairwise_cons] at hl
    obtain ⟨hy, hys⟩ := hl
    rw [dedupAux]
    by_cases hseen : y.1 ∈ seen
    · rw [if_pos hseen]
      exact ih seen hys
    · rw [if_neg hseen, List.pairwise_cons]
      refine ⟨?_, ih _ hys⟩
      intro z hz
      have h1 : z ∈ ys := mem_dedupAux ys _ z hz
      have h2 : z.1 ∉ y.1 :: seen := dedupAux_not_seen ys _ z hz
      have h3 : z.1 ≠ y.1 := fun he => h2 (he ▸ List.mem_cons_self _ _)
      have h4 := hy z h1
      omega

lemma lookup_dedupAux (l : List (Nat × Ohlc)) : ∀ seen d, d ∉ seen →
    (dedupAux seen l).lookup d = l.lookup d := by
  induction l with
  | nil => intro seen d _; rfl
  | cons y ys ih =>
    intro seen d hd
    rw [dedupAux]
    by_cases hseen : y.1 ∈ seen
    · rw [if_pos hseen]
      have hne : d ≠ y.1 := fun he => hd (he ▸ hseen)
      rw [show (y :: ys).lookup d = ys.lookup d from ?_]
      · exact ih seen d hd
      · obtain ⟨k, v⟩ := y
        rw [List.lookup_cons, show (d == k) = false from beq_false_of_ne hne]
    · rw [if_neg hseen]
      obtain ⟨k, v⟩ := y
      by_cases hk : d = k
      · subst hk
        rw [List.lookup_cons, List.lookup_cons, beq_self_eq_true]
      · rw [List.lookup_cons, List.lookup_cons,
          show (d == k) = false from beq_false_of_ne hk]
        exact ih _ d (by simp [hd, hk])

/-! ### Series-loader claim -/

/-- Claim C4: `read_series` produces strictly increasing (hence unique) dates;
every produced row originates in an input row whose date and prices were all
present, with the time-of-day component stripped; and the row kept for a date
is the first occurrence of that date in the ascending sort (lookup into the
output agrees with lookup into the sorted, not yet deduplicated rows). -/
theorem read_series_props (rows : List RawRow) :
    ((read_series rows).Pairwise fun u v => u.1 < v.1) ∧
      (∀ x ∈ read_series rows, ∃ r ∈ rows, ∃ t,
        r.date = some (x.1, t) ∧ r.o = some x.2.o ∧ r.hi = some x.2.hi ∧
          r.lo = some x.2.lo ∧ r.c = some x.2.c) ∧
      (∀ d, (read_series rows).lookup d
        = (sortRows ((rows.filterMap rowClean).map normalizeDate)).lookup d) := by
  refine ⟨?_, ?_, ?_⟩
  · exact pairwise_dedupAux _ [] (pairwise_sortRows _)
  · intro x hx
    have h1 : x ∈ sortRows ((rows.filterMap rowClean).map normalizeDate) :=
      mem_dedupAux _ [] x hx
    rw [mem_sortRows, List.mem_map] at h1
    obtain ⟨p, hp, hpx⟩ := h1
    rw [List.mem_filterMap] at hp
    obtain ⟨r, hr, hrc⟩ := hp
    obtain ⟨rd, ro, rhi, rlo, rc⟩ := r
    rw [rowClean] at hrc
    cases rd with
    | none => simp at hrc
    | some dv =>
      cases ro with
      | none => simp at hrc
      | some ov =>
        cases rhi with
        | none => simp at hrc
        | some hv =>
          cases rlo with
          | none => simp at hrc
          | some lv =>
            cases rc with
            | none => simp at hrc
            | some cv =>
              simp only [Option.some.injEq] at hrc
              refine ⟨⟨some dv, some ov, some hv, some lv, some cv⟩, hr, dv.2, ?_⟩
              rw [← hpx, ← hrc, normalizeDate]
              simp
  · intro d
    exact lookup_dedupAux _ [] d (List.not_mem_nil d)

/-- Claim C4, witness: a concrete raw table with a missing-price row, a
missing-date row, out-of-order dates, nonzero times of day, and a duplicate
date collapses to unique ascending dates keeping the first sorted occurrence. -/
theorem read_series_props_witness :
    ∃ r ∈ [(⟨some (5, 30), some 1, some 2, some 3, some (4 : ℚ)⟩ : RawRow),
        ⟨some (3, 0), some 10, some 20, some 30, some 40⟩,
        ⟨some (3, 7), some 11, some 21, some 31, some 41⟩,
        ⟨none, some 1, some 1, some 1, some 1⟩,
        ⟨some (4, 0), none, some 1, some 1, some 1⟩], ∃ t,
      r.date = some (3, t) ∧ r.o = some 10 ∧ r.hi = some 20 ∧
        r.lo = some 30 ∧ r.c = some 40 := by
  have h := (read_series_props [⟨some (5, 30), some 1, some 2, some 3, some 4⟩,
    ⟨some (3, 0), some 10, some 20, some 30, some 40⟩,
    ⟨some (3, 7), some 11, some 21, some 31, some 41⟩,
    ⟨none, some 1, some 1, some 1, some 1⟩,
    ⟨some (4, 0), none, some 1, some 1, some 1⟩]).2.1 (3, ⟨10, 20, 30, 40⟩) (by decide)
  exact h

end Futures
